import Mathlib

/-!
# Verification of the `frate` tool manager core

A shallow embedding, in Lean 4, of the core resolve → lock → install pipeline
of the `frate` per-project tool manager (Rust sources under `src/`):

* `src/util.rs` — `format_hash`, `current_target_triple`, `expand_version`,
  `get_binary` and its executable / ranking heuristics;
* `src/registry.rs` — `resolve_dependency` with the musl/gnu fallback;
* `src/lock.rs` — `FrateLock` data model, `sync`, `save` / `load_or_default`;
* `src/installer.rs` — `install_package`, `download_and_extract`,
  `extract_cached`, `uninstall_package`, `uninstall_packages`;
* `src/global/cache.rs` — `get_cached_archive`, `is_cached`, `cache_archive`.

External collaborators (network, SHA-256, archive decoders, directory walks)
are passed in as explicit parameters; filesystem and network side effects are
reified as an explicit list of `Effect`s produced alongside each operation's
result, and errors as an `Except` over the error kinds of the design.  The
POSIX platform variant is modelled (path separator `/`, symlink shims,
permission-bit executability), matching the `#[cfg(not(target_os = "windows"))]`
branches of the source.
-/

deriving instance DecidableEq for Except

namespace Frate

/-- Byte strings are modelled as lists of byte values. -/
abbrev Bytes := List Nat

/-- Rust `str::starts_with` on strings. -/
def strStartsWith (s pre : String) : Bool :=
  pre.toList.isPrefixOf s.toList

/-- Rust `str::ends_with` on strings. -/
def strEndsWith (s suf : String) : Bool :=
  suf.toList.reverse.isPrefixOf s.toList.reverse

/-- `util.rs::format_hash`: strips a leading `sha256:` prefix if present. -/
def format_hash (hash : String) : String :=
  if strStartsWith hash "sha256:" then String.mk (hash.toList.drop 7) else hash

/-- `util.rs::current_target_triple`, with the host's `ARCH` and `OS` made
explicit parameters.  The Rust `match` on `(arch, os)` pairs becomes the
equivalent chain of equality tests, ending in the `{arch}-unknown-{os}`
fallback. -/
def current_target_triple (arch os : String) : String :=
  if arch == "x86_64" && os == "linux" then "x86_64-unknown-linux-gnu"
  else if arch == "x86" && os == "windows" then "i686-pc-windows-msvc"
  else if arch == "x86_64" && os == "windows" then "x86_64-pc-windows-msvc"
  else if arch == "aarch64" && os == "linux" then "aarch64-unknown-linux-gnu"
  else if arch == "aarch64" && os == "macos" then "aarch64-apple-darwin"
  else if arch == "x86_64" && os == "macos" then "x86_64-apple-darwin"
  else arch ++ "-unknown-" ++ os

/-- `util.rs::expand_version`: appends `-{target_triple}` to the version. -/
def expand_version (arch os version : String) : String :=
  version ++ "-" ++ current_target_triple arch os

/-- Whether `needle` occurs as a contiguous sublist of `hay`. -/
def listInfix (needle hay : List Char) : Bool :=
  (List.range (hay.length + 1)).any (fun i => needle.isPrefixOf (hay.drop i))

/-- Rust `str::contains` (substring containment). -/
def containsSub (hay needle : String) : Bool :=
  listInfix needle.toList hay.toList

/-- Fuel-indexed worker for `replaceList`.  Every step consumes at least one
character and one unit of fuel, so fuel equal to the input length never runs
out. -/
def replaceListAux (pat rep : List Char) : Nat → List Char → List Char
  | 0, l => l
  | Nat.succ fuel, l =>
    match l with
    | [] => []
    | c :: cs =>
      if pat.isPrefixOf (c :: cs) ∧ pat ≠ [] then
        rep ++ replaceListAux pat rep fuel (List.drop (pat.length - 1) cs)
      else
        c :: replaceListAux pat rep fuel cs

/-- Non-overlapping left-to-right replacement of `pat` by `rep` on a character
list, as done by Rust `str::replace` (for nonempty patterns). -/
def replaceList (pat rep l : List Char) : List Char :=
  replaceListAux pat rep l.length l

/-- Rust `str::replace` on strings (all occurrences, left to right). -/
def strReplace (s pat rep : String) : String :=
  String.mk (replaceList pat.toList rep.toList s.toList)

/-- Error kinds of the design (spec §7), covering the `bail!`/`anyhow!` sites
of the source. -/
inductive FrateError where
  | registryNotFound (tool : String)
  | versionNotFound
  | downloadError (url : String) (status : Nat)
  | integrityError (expected actual : String)
  | unsupportedArchiveType (name : String)
  | extractionError (dest : String)
  | binaryNotFound (dir : String)
  | filesystemError (path : String)
  deriving DecidableEq

/-- `registry.rs::ReleaseInfo`. -/
structure ReleaseInfo where
  url : String
  hash : String
  deriving DecidableEq

/-- `registry.rs::RegistryTool`; the `HashMap<String, ReleaseInfo>` of
releases is modelled as an association list with unique keys. -/
structure RegistryTool where
  name : String
  repo : String
  releases : List (String × ReleaseInfo)
  deriving DecidableEq

/-- `HashMap::get` on the release map. -/
def lookupRelease (rs : List (String × ReleaseInfo)) (key : String) : Option ReleaseInfo :=
  (rs.find? (fun p => p.1 == key)).map (fun p => p.2)

/-- `registry.rs::ResolvedDependency`. -/
structure ResolvedDependency where
  name : String
  version : String
  url : String
  hash : String
  deriving DecidableEq

/-- `registry.rs::resolve_dependency`.  `registry` models `fetch_registry`
(`none` = fetch or parse failure); `arch`/`os` are the host constants. -/
def resolve_dependency (registry : String → Option RegistryTool) (arch os : String)
    (tool_name version : String) : Except FrateError ResolvedDependency :=
  match registry tool_name with
  | none => .error (.registryNotFound tool_name)
  | some tool =>
    let full_version := expand_version arch os version
    let release :=
      match lookupRelease tool.releases full_version with
      | some r => some r
      | none =>
        if containsSub full_version "musl" then
          lookupRelease tool.releases (strReplace full_version "musl" "gnu")
        else if containsSub full_version "gnu" then
          lookupRelease tool.releases (strReplace full_version "gnu" "musl")
        else
          none
    match release with
    | none => .error .versionNotFound
    | some r => .ok ⟨tool.name, full_version, r.url, r.hash⟩

/-- `lock.rs::LockedPackage`. -/
structure LockedPackage where
  name : String
  version : String
  source : String
  hash : String
  deriving DecidableEq

/-- `lock.rs::FrateLock::sync`, with the resolver as an explicit parameter and
the manifest's dependency map as an association list.  It first clears
`self.packages`, then folds over the dependencies: a resolution failure is
logged and skipped (`continue`), a resolved dependency is appended unless a
package of the same name is already present.  The function body has no other
fallible step, so it always returns `.ok ()`. -/
def FrateLock.sync (resolver : String → String → Except FrateError ResolvedDependency)
    (packages : List LockedPackage) (deps : List (String × String)) :
    List LockedPackage × Except FrateError Unit :=
  let _ := packages
  let cleared : List LockedPackage := []
  let final := deps.foldl (fun acc nv =>
    match resolver nv.1 nv.2 with
    | .error _ => acc
    | .ok resolved =>
      let locked : LockedPackage := ⟨resolved.name, resolved.version, resolved.url, resolved.hash⟩
      if acc.any (fun p => p.name == locked.name) then acc else acc ++ [locked]) cleared
  (final, .ok ())

/-! ## Archive cache and installer -/

/-- Worker for `lastSegment`: the accumulator holds the current segment
reversed and is reset at each separator. -/
def lastSegAux : List Char → List Char → List Char
  | [], acc => acc.reverse
  | c :: cs, acc => if c = '/' then lastSegAux cs [] else lastSegAux cs (c :: acc)

/-- `url.split('/').next_back()` (POSIX `PATH_SEPARATOR` is also `/`): the
final path segment of a URL or path. -/
def lastSegment (s : String) : String :=
  String.mk (lastSegAux s.toList [])

/-- State of the global archive cache: whether the cache directory exists and
the files it holds (file name → raw bytes). -/
structure CacheState where
  dir : String
  dirExists : Bool
  files : List (String × Bytes)
  deriving DecidableEq

/-- The paths `WalkDir` yields under the cache directory: the directory
itself followed by each cached file's full path. -/
def CacheState.paths (c : CacheState) : List String :=
  c.dir :: c.files.map (fun f => c.dir ++ "/" ++ f.1)

/-- `global/cache.rs::get_cached_archive`: the cache path derived from the
URL's final segment, if such a file exists. -/
def get_cached_archive (c : CacheState) (url : String) : Option String :=
  let file_name := lastSegment url
  if c.dirExists && c.files.any (fun f => f.1 == file_name) then
    some (c.dir ++ "/" ++ file_name)
  else
    none

/-- The bytes stored under the cache file name derived from `url`. -/
def cacheFileBytes (c : CacheState) (url : String) : Option Bytes :=
  ((c.files.find? (fun f => f.1 == lastSegment url)).map (fun f => f.2))

/-- `global/cache.rs::is_cached`: false when the cache directory is missing;
otherwise true iff some walked path contains `full_name` as a substring. -/
def is_cached (c : CacheState) (full_name : String) : Bool :=
  if !c.dirExists then false
  else c.paths.any (fun p => containsSub p full_name)

/-- Reified filesystem / network side effects of the installer. -/
inductive Effect where
  | createDir (path : String)
  | download (url : String)
  | readCache (path : String)
  | extractZip (dest : String)
  | extractTarGz (dest : String)
  | cacheWrite (file : String) (bytes : Bytes)
  | createShim (target shim : String)
  deriving DecidableEq

/-- An HTTP response as seen by `reqwest::blocking::get`. -/
structure HttpResponse where
  status : Nat
  body : Bytes
  deriving DecidableEq

/-- `StatusCode::is_success`: 2xx. -/
def statusSuccess (s : Nat) : Bool :=
  200 ≤ s && s < 300

/-- `installer.rs::download_and_extract`.  Parameters model the external
collaborators: `sha256hex` hashes bytes to a lowercase hex digest, `net`
performs the blocking GET (`none` = transport failure), `zipOk`/`tarOk` say
whether the bytes form a well-formed archive of the respective kind, and
`cache` is the current archive-cache state (read by `is_cached`).  Returns
the list of side effects performed together with the result. -/
def download_and_extract (sha256hex : Bytes → String) (net : String → Option HttpResponse)
    (zipOk tarOk : Bytes → Bool) (cache : CacheState)
    (url dest_dir expected_hash : String) : List Effect × Except FrateError Unit :=
  let expected := format_hash expected_hash
  match net url with
  | none => ([.download url], .error (.downloadError url 0))
  | some response =>
    if !statusSuccess response.status then
      ([.download url], .error (.downloadError url response.status))
    else
      let bytes := response.body
      let actual := sha256hex bytes
      if actual ≠ expected then
        ([.download url], .error (.integrityError expected actual))
      else if strEndsWith url ".zip" then
        if zipOk bytes then
          if !is_cached cache url then
            ([.download url, .extractZip dest_dir, .cacheWrite (lastSegment url) bytes], .ok ())
          else
            ([.download url, .extractZip dest_dir], .ok ())
        else
          ([.download url, .extractZip dest_dir], .error (.extractionError dest_dir))
      else if strEndsWith url ".tar.gz" then
        if tarOk bytes then
          if !is_cached cache url then
            ([.download url, .extractTarGz dest_dir, .cacheWrite (lastSegment url) bytes], .ok ())
          else
            ([.download url, .extractTarGz dest_dir], .ok ())
        else
          ([.download url, .extractTarGz dest_dir], .error (.extractionError dest_dir))
      else
        ([.download url], .error (.unsupportedArchiveType (lastSegment url)))

/-- `installer.rs::extract_cached`.  `readBytes` is the result of
`std::fs::read(cached_path)` (`none` = read failure). -/
def extract_cached (sha256hex : Bytes → String) (zipOk tarOk : Bytes → Bool)
    (readBytes : Option Bytes) (cached_path dest_dir expected_hash : String) :
    List Effect × Except FrateError Unit :=
  let expected := format_hash expected_hash
  match readBytes with
  | none => ([.readCache cached_path], .error (.filesystemError cached_path))
  | some archive_bytes =>
    let actual := sha256hex archive_bytes
    if actual ≠ expected then
      ([.readCache cached_path], .error (.integrityError expected actual))
    else if strEndsWith cached_path ".zip" then
      if zipOk archive_bytes then
        ([.readCache cached_path, .extractZip dest_dir], .ok ())
      else
        ([.readCache cached_path, .extractZip dest_dir], .error (.extractionError dest_dir))
    else if strEndsWith cached_path ".tar.gz" then
      if tarOk archive_bytes then
        ([.readCache cached_path, .extractTarGz dest_dir], .ok ())
      else
        ([.readCache cached_path, .extractTarGz dest_dir], .error (.extractionError dest_dir))
    else
      ([.readCache cached_path], .error (.unsupportedArchiveType (lastSegment dest_dir)))

/-! ## Locating the primary executable (`util.rs::get_binary`) -/

/-- A regular-file entry yielded by `WalkDir` under `.frate/bin/{name}`:
its path, whether it is a regular file, and its POSIX permission bits. -/
structure WalkEntry where
  path : String
  isFile : Bool
  mode : Nat
  deriving DecidableEq

/-- `util.rs::is_executable` (unix): any of the `0o111` execute bits set. -/
def is_executable (mode : Nat) : Bool :=
  Nat.land mode 73 ≠ 0

/-- Index of the last `.` in a character list, if any. -/
def lastDotIdx (cs : List Char) : Option Nat :=
  (List.range cs.length).foldl
    (fun acc i => if cs.get? i == some '.' then some i else acc) none

/-- Rust `Path::file_stem` applied to a file name: the portion before the
last `.`, except that a sole leading dot keeps the whole name. -/
def fileStem (n : String) : String :=
  match lastDotIdx n.toList with
  | none => n
  | some 0 => n
  | some i => String.mk (n.toList.take i)

/-- ASCII lowercasing of one character (the inputs considered are ASCII). -/
def asciiLowerChar (c : Char) : Char :=
  if 'A' ≤ c ∧ c ≤ 'Z' then Char.ofNat (c.toNat + 32) else c

/-- Rust `str::to_lowercase`, restricted to ASCII. -/
def asciiLower (s : String) : String :=
  String.mk (s.toList.map asciiLowerChar)

/-- ASCII word characters, as classified by the regex `\b` boundary. -/
def isWordChar (c : Char) : Bool :=
  c.isAlphanum || c == '_'

/-- Whether the regex word boundary `\b` holds at offset `i` of `l`:
word-ness differs between the character before and the character at `i`
(out of range counts as non-word). -/
def boundaryAt (l : List Char) (i : Nat) : Bool :=
  let w := fun (o : Option Char) => (o.map isWordChar).getD false
  let before := if i = 0 then none else l.get? (i - 1)
  w before != w (l.get? i)

/-- The regex `(?i)\b{escape(name)}.*` tested by `Regex::is_match` against
the (already lowercased) file stem: some offset has a word boundary followed
by the name, compared case-insensitively (`.*` constrains nothing). -/
def matchesNameRe (name : String) (stem : String) : Bool :=
  let n := (asciiLower name).toList
  let l := stem.toList
  (List.range (l.length + 1)).any (fun i => boundaryAt l i && n.isPrefixOf (l.drop i))

/-- The sort key of `util.rs::get_binary`: 0 when the lowercased file stem
matches `(?i)\b{name}.*`, else 10. -/
def rank (name : String) (p : String) : Nat :=
  let fname := asciiLower (fileStem (lastSegment p))
  if matchesNameRe name fname then 0 else 10

/-- Insert `x` into a list sorted by key `k`, before the first element of
equal or larger key. -/
def insertByKey (k : String → Nat) (x : String) : List String → List String
  | [] => [x]
  | y :: ys => if k x ≤ k y then x :: y :: ys else y :: insertByKey k x ys

/-- A stable sort by key (Rust `slice::sort_by_key` is stable, so it computes
this same list). -/
def sortByKey (k : String → Nat) (l : List String) : List String :=
  l.foldr (insertByKey k) []

/-- `util.rs::get_binary`, with the existence of `.frate/bin/{name}` and the
`WalkDir` enumeration (in traversal order) as explicit parameters.  Filters
to executable regular files, errors when none remain, and otherwise returns
the head of the stable sort by `rank`. -/
def get_binary (name : String) (dirExists : Bool) (entries : List WalkEntry) :
    Except FrateError (Option String) :=
  if !dirExists then .ok none
  else
    let candidates := (entries.filter (fun e => e.isFile && is_executable e.mode)).map
      (fun e => e.path)
    if candidates.isEmpty then .error (.binaryNotFound name)
    else .ok (some ((sortByKey (rank name) candidates).headD ""))

/-! ## Single-package installation (`installer.rs::install_package`) -/

/-- `installer.rs::install_package`.  The destination directory
`{frate_dir}/bin/{name}` is created first; then either the cached archive is
verified and extracted, or the archive is downloaded, verified, extracted and
cached; finally the primary executable is located and a shim created.
`binDirSeen` and `walkEntries` model the filesystem state `get_binary`
observes after extraction. -/
def install_package (sha256hex : Bytes → String) (net : String → Option HttpResponse)
    (zipOk tarOk : Bytes → Bool) (cache : CacheState)
    (binDirSeen : Bool) (walkEntries : List WalkEntry)
    (pkg : LockedPackage) (frate_dir : String) : List Effect × Except FrateError Unit :=
  let bin_dir := frate_dir ++ "/bin"
  let shims_dir := frate_dir ++ "/shims"
  let url := pkg.source
  let dest_dir := bin_dir ++ "/" ++ pkg.name
  let step1 : List Effect := [.createDir dest_dir]
  let extractStep :=
    match get_cached_archive cache url with
    | some cached_path =>
      extract_cached sha256hex zipOk tarOk (cacheFileBytes cache url) cached_path dest_dir pkg.hash
    | none =>
      download_and_extract sha256hex net zipOk tarOk cache url dest_dir pkg.hash
  match extractStep with
  | (tr, .error e) => (step1 ++ tr, .error e)
  | (tr, .ok _) =>
    match get_binary pkg.name binDirSeen walkEntries with
    | .error e => (step1 ++ tr, .error e)
    | .ok none => (step1 ++ tr, .error (.binaryNotFound pkg.name))
    | .ok (some target) =>
      let fn := lastSegment target
      if fn = "" then (step1 ++ tr, .error (.filesystemError target))
      else
        let shim_path := shims_dir ++ "/" ++ fileStem fn
        (step1 ++ tr ++ [.createShim target shim_path], .ok ())

/-- Replay the directory-creation effects of a trace onto a set of existing
directories (`create_dir_all` creates the directory when absent). -/
def dirsAfter (effects : List Effect) (dirs : List String) : List String :=
  effects.foldl
    (fun ds e =>
      match e with
      | .createDir d => if ds.contains d then ds else ds ++ [d]
      | _ => ds) dirs

/-! ## Uninstallation (`installer.rs`) -/

/-- Project-local install state: contents of `.frate/bin` (per-tool directory
names) and `.frate/shims` (shim file names); `none` means the directory
itself does not exist. -/
structure ProjectFS where
  binDir : Option (List String)
  shimsDir : Option (List String)
  deriving DecidableEq

/-- `installer.rs::uninstall_package` (POSIX branch): removes
`.frate/bin/{name}` and `.frate/shims/{name}` only when they exist; always
succeeds. -/
def uninstall_package (name : String) (fs : ProjectFS) : ProjectFS × Except FrateError Unit :=
  let binHas := match fs.binDir with
    | some l => l.contains name
    | none => false
  let fs1 := if binHas then { fs with binDir := fs.binDir.map (fun l => l.erase name) } else fs
  let shimHas := match fs1.shimsDir with
    | some l => l.contains name
    | none => false
  let fs2 := if shimHas then { fs1 with shimsDir := fs1.shimsDir.map (fun l => l.erase name) }
    else fs1
  (fs2, .ok ())

/-- `installer.rs::uninstall_packages`: `remove_dir_all` on `.frate/bin` and
`.frate/shims` without existence checks (erroring when the directory is
missing), then recreates both empty. -/
def uninstall_packages (fs : ProjectFS) : ProjectFS × Except FrateError Unit :=
  match fs.binDir with
  | none => (fs, .error (.filesystemError ".frate/bin"))
  | some _ =>
    match fs.shimsDir with
    | none => ({ fs with binDir := none }, .error (.filesystemError ".frate/shims"))
    | some _ => (⟨some [], some []⟩, .ok ())

/-! ## Lockfile serialization (`lock.rs::save` / `load_or_default`)

`save` renders the lockfile with `toml::to_string_pretty` and writes it;
`load_or_default` reads the file and parses it with `toml::from_str`,
returning the empty lockfile on a missing file or parse failure.  The TOML
serializer is modelled concretely for this data shape: an empty package list
renders as `packages = []`, a nonempty one as a sequence of `[[packages]]`
tables (name, version, source, hash) separated by blank lines, with values
as TOML basic strings (standard named escapes, `\u00XX` for the remaining
control characters).  The parser is the matching reader, `none` elsewhere. -/

/-- The lowercase hex digit for `n < 16`. -/
def hexDigit (n : Nat) : Char :=
  "0123456789abcdef".toList.getD n '0'

/-- The value of a lowercase hex digit. -/
def hexVal (c : Char) : Option Nat :=
  "0123456789abcdef".toList.findIdx? (fun d => d == c)

/-- TOML basic-string escaping of one character. -/
def escChar (c : Char) : List Char :=
  if c = '"' then ['\\', '"']
  else if c = '\\' then ['\\', '\\']
  else if c = '\n' then ['\\', 'n']
  else if c = '\t' then ['\\', 't']
  else if c = '\r' then ['\\', 'r']
  else if c = Char.ofNat 8 then ['\\', 'b']
  else if c = Char.ofNat 12 then ['\\', 'f']
  else if c.toNat < 32 ∨ c.toNat = 127 then
    ['\\', 'u', '0', '0', hexDigit (c.toNat / 16), hexDigit (c.toNat % 16)]
  else [c]

/-- TOML basic-string escaping of a character list. -/
def escapeChars : List Char → List Char
  | [] => []
  | c :: cs => escChar c ++ escapeChars cs

/-- One `[[packages]]` table (no trailing newline): each field on its own
line with its value as a quoted TOML basic string. -/
def blockChars (p : LockedPackage) : List Char :=
  "[[packages]]\nname = \"".toList ++ escapeChars p.name.toList
    ++ '"' :: ("\nversion = \"".toList ++ escapeChars p.version.toList
    ++ '"' :: ("\nsource = \"".toList ++ escapeChars p.source.toList
    ++ '"' :: ("\nhash = \"".toList ++ escapeChars p.hash.toList ++ ['"'])))

/-- The rendered lockfile document: tables separated by blank lines, with a
trailing newline; the empty list renders as `packages = []`. -/
def printLockChars : List LockedPackage → List Char
  | [] => "packages = []\n".toList
  | [p] => blockChars p ++ ['\n']
  | p :: ps => blockChars p ++ '\n' :: '\n' :: printLockChars ps

/-- `toml::to_string_pretty` on a `FrateLock`. -/
def printLock (ps : List LockedPackage) : String :=
  String.mk (printLockChars ps)

/-- Decode a named TOML escape character. -/
def decodeEsc (e : Char) : Option Char :=
  if e = '"' then some '"'
  else if e = '\\' then some '\\'
  else if e = 'n' then some '\n'
  else if e = 't' then some '\t'
  else if e = 'r' then some '\r'
  else if e = 'b' then some (Char.ofNat 8)
  else if e = 'f' then some (Char.ofNat 12)
  else none

/-- Fuel-indexed worker for `unescapeQuoted`: consume the characters of a
TOML basic string up to its closing quote, decoding escapes.  Every step
consumes at least one character and one unit of fuel. -/
def unescapeQuotedAux : Nat → List Char → Option (List Char × List Char)
  | 0, _ => none
  | Nat.succ fuel, l =>
    match l with
    | [] => none
    | c :: rest =>
      if c = '"' then some ([], rest)
      else if c = '\\' then
        match rest with
        | [] => none
        | e :: rest2 =>
          if e = 'u' then
            match rest2 with
            | a :: b :: c2 :: d :: rest3 =>
              match hexVal a, hexVal b, hexVal c2, hexVal d,
                unescapeQuotedAux fuel rest3 with
              | some va, some vb, some vc, some vd, some (s, r) =>
                some (Char.ofNat (((va * 16 + vb) * 16 + vc) * 16 + vd) :: s, r)
              | _, _, _, _, _ => none
            | _ => none
          else
            match decodeEsc e, unescapeQuotedAux fuel rest2 with
            | some ch, some (s, r) => some (ch :: s, r)
            | _, _ => none
      else
        match unescapeQuotedAux fuel rest with
        | some (s, r) => some (c :: s, r)
        | none => none

/-- Consume the characters of a TOML basic string up to its closing quote,
decoding escapes; returns the decoded characters and the remaining input. -/
def unescapeQuoted (l : List Char) : Option (List Char × List Char) :=
  unescapeQuotedAux l.length l

/-- Expect a literal prefix, returning the rest of the input. -/
def expectPrefix : List Char → List Char → Option (List Char)
  | [], l => some l
  | _ :: _, [] => none
  | p :: ps, c :: cs => if c = p then expectPrefix ps cs else none

/-- Parse one `[[packages]]` table, returning it and the remaining input. -/
def parseBlock (l : List Char) : Option (LockedPackage × List Char) := do
  let r1 ← expectPrefix "[[packages]]\nname = \"".toList l
  let (nameC, r2) ← unescapeQuoted r1
  let r3 ← expectPrefix "\nversion = \"".toList r2
  let (verC, r4) ← unescapeQuoted r3
  let r5 ← expectPrefix "\nsource = \"".toList r4
  let (srcC, r6) ← unescapeQuoted r5
  let r7 ← expectPrefix "\nhash = \"".toList r6
  let (hashC, r8) ← unescapeQuoted r7
  some (⟨String.mk nameC, String.mk verC, String.mk srcC, String.mk hashC⟩, r8)

/-- Parse a nonempty sequence of `[[packages]]` tables separated by blank
lines and ending with the document's final newline.  `fuel` bounds the
recursion depth; `parseBlocks` supplies the input length, which suffices
since every table consumes at least one character. -/
def parseBlocksAux : Nat → List Char → Option (List LockedPackage)
  | 0, _ => none
  | Nat.succ fuel, l =>
    match parseBlock l with
    | none => none
    | some (p, rest) =>
      match rest with
      | ['\n'] => some [p]
      | '\n' :: '\n' :: more =>
        match parseBlocksAux fuel more with
        | some ps => some (p :: ps)
        | none => none
      | _ => none

/-- Parse a nonempty rendered lockfile document. -/
def parseBlocks (l : List Char) : Option (List LockedPackage) :=
  parseBlocksAux l.length l

/-- `toml::from_str` on a rendered lockfile document (the partial inverse of
`printLock`; other documents are not needed for the round trip). -/
def parseLock (content : String) : Option (List LockedPackage) :=
  if content = "packages = []\n" then some []
  else parseBlocks content.toList

/-- A flat file store: path → contents. -/
def FileStore := List (String × String)

/-- `fs::write` (create if absent, then overwrite). -/
def fsWrite (files : List (String × String)) (path content : String) :
    List (String × String) :=
  (path, content) :: files.filter (fun kv => kv.1 != path)

/-- Read a file's contents, if present. -/
def fsLookup (files : List (String × String)) (path : String) : Option String :=
  (files.find? (fun kv => kv.1 == path)).map (fun kv => kv.2)

/-- `lock.rs::FrateLock::save`: serialize and write to `path`. -/
def FrateLock.save (packages : List LockedPackage) (files : List (String × String))
    (path : String) : List (String × String) :=
  fsWrite files path (printLock packages)

/-- `lock.rs::FrateLock::load_or_default`: read and parse `path`, returning
the empty package list when the file is missing or fails to parse. -/
def FrateLock.load_or_default (files : List (String × String)) (path : String) :
    List LockedPackage :=
  match fsLookup files path with
  | none => []
  | some content => (parseLock content).getD []

/-! ## C9: deterministic version expansion -/

/-- C9: for every version string `v` and host `(arch, os)`, `expand_version`
equals `v ++ "-" ++ triple` where the triple comes from the fixed lookup
table (all six listed rows hold) and any unlisted `(arch, os)` combination
falls back to `"{arch}-unknown-{os}"`.  Determinism is immediate:
`expand_version` is a pure function of `(arch, os, v)`. -/
theorem expand_version_appends_host_triple :
    (∀ arch os v, expand_version arch os v = v ++ "-" ++ current_target_triple arch os) ∧
    current_target_triple "x86_64" "linux" = "x86_64-unknown-linux-gnu" ∧
    current_target_triple "x86" "windows" = "i686-pc-windows-msvc" ∧
    current_target_triple "x86_64" "windows" = "x86_64-pc-windows-msvc" ∧
    current_target_triple "aarch64" "linux" = "aarch64-unknown-linux-gnu" ∧
    current_target_triple "aarch64" "macos" = "aarch64-apple-darwin" ∧
    current_target_triple "x86_64" "macos" = "x86_64-apple-darwin" ∧
    (∀ arch os,
      (arch, os) ∉ ([("x86_64", "linux"), ("x86", "windows"), ("x86_64", "windows"),
        ("aarch64", "linux"), ("aarch64", "macos"), ("x86_64", "macos")] :
          List (String × String)) →
      current_target_triple arch os = arch ++ "-unknown-" ++ os) := by
  refine ⟨fun arch os v => rfl, rfl, rfl, rfl, rfl, rfl, rfl, ?_⟩
  intro arch os h
  simp only [List.mem_cons, List.not_mem_nil, or_false, not_or] at h
  obtain ⟨h1, h2, h3, h4, h5, h6⟩ := h
  simp only [current_target_triple]
  repeat' split
  all_goals simp_all [Prod.ext_iff]

/-- Witness for `expand_version_appends_host_triple`: an unlisted host
combination falls back to `{arch}-unknown-{os}`. -/
theorem expand_version_appends_host_triple_witness :
    current_target_triple "riscv64" "freebsd" = "riscv64-unknown-freebsd" :=
  expand_version_appends_host_triple.2.2.2.2.2.2.2 "riscv64" "freebsd" (by decide)

/-! ## C3: partial-success lockfile sync -/

/-- C3: for a manifest with dependencies `{A: vA, B: vB}` where `A` resolves
and `B` fails, `sync` returns success and the lockfile contains exactly the
one package for `A` — in **either** iteration order of the two dependencies
(the manifest map's order is arbitrary), and regardless of the previous
lockfile contents, which are cleared.  `sync` never aborts early on a
resolution failure: a failing dependency anywhere in the dependency list is
skipped and the sync of the remaining list is unchanged (so dependencies
after the failure are still processed), and `sync` never returns an error
for any resolver, previous contents and dependency list. -/
theorem sync_partial_success
    (resolver : String → String → Except FrateError ResolvedDependency)
    (prev : List LockedPackage) (A vA B vB : String) (rA : ResolvedDependency)
    (e : FrateError) (hA : resolver A vA = .ok rA) (hB : resolver B vB = .error e) :
    FrateLock.sync resolver prev [(A, vA), (B, vB)] =
      ([⟨rA.name, rA.version, rA.url, rA.hash⟩], .ok ()) ∧
    FrateLock.sync resolver prev [(B, vB), (A, vA)] =
      ([⟨rA.name, rA.version, rA.url, rA.hash⟩], .ok ()) ∧
    (∀ (res : String → String → Except FrateError ResolvedDependency)
      (p : List LockedPackage) (pre post : List (String × String))
      (n v : String) (er : FrateError), res n v = .error er →
      FrateLock.sync res p (pre ++ (n, v) :: post) = FrateLock.sync res p (pre ++ post)) ∧
    (∀ (res : String → String → Except FrateError ResolvedDependency)
      (p : List LockedPackage) (deps : List (String × String)),
      (FrateLock.sync res p deps).2 = .ok ()) := by
  refine ⟨by simp [FrateLock.sync, hA, hB], by simp [FrateLock.sync, hA, hB], ?_,
    fun res p deps => rfl⟩
  intro res p pre post n v er her
  simp [FrateLock.sync, List.foldl_append, her]

/-- Witness for `sync_partial_success`: a concrete two-entry manifest with
one failing resolution yields exactly the successful package, whichever of
the two dependencies comes first. -/
theorem sync_partial_success_witness :
    FrateLock.sync
      (fun n _ => if n = "a" then .ok ⟨"a", "1.0.0", "https://e.com/a.zip", "h"⟩
        else .error .versionNotFound)
      [⟨"old", "0.1.0", "s", "k"⟩] [("a", "1.0.0"), ("b", "2.0.0")] =
      ([⟨"a", "1.0.0", "https://e.com/a.zip", "h"⟩], .ok ()) ∧
    FrateLock.sync
      (fun n _ => if n = "a" then .ok ⟨"a", "1.0.0", "https://e.com/a.zip", "h"⟩
        else .error .versionNotFound)
      [⟨"old", "0.1.0", "s", "k"⟩] [("b", "2.0.0"), ("a", "1.0.0")] =
      ([⟨"a", "1.0.0", "https://e.com/a.zip", "h"⟩], .ok ()) :=
  ⟨(sync_partial_success _ _ "a" "1.0.0" "b" "2.0.0"
      ⟨"a", "1.0.0", "https://e.com/a.zip", "h"⟩ .versionNotFound
      (by simp) (by simp)).1,
   (sync_partial_success _ _ "a" "1.0.0" "b" "2.0.0"
      ⟨"a", "1.0.0", "https://e.com/a.zip", "h"⟩ .versionNotFound
      (by simp) (by simp)).2.1⟩

/-! ## C4: resolver lookup order and musl/gnu fallback -/

/-- C4: the resolver looks up the exact platform-qualified key; if absent
and the key contains a libc marker, it retries exactly once with the marker
swapped (checking `musl` before `gnu`); if both lookups fail — or the key
contains no marker — it fails with `versionNotFound`.  The final conjunct is
the concrete scenario: requirement `1.42.1` on an `x86_64` linux host first
yields key `1.42.1-x86_64-unknown-linux-gnu`, whose swapped retry key is
`1.42.1-x86_64-unknown-linux-musl`. -/
theorem resolve_dependency_lookup_order
    (registry : String → Option RegistryTool) (arch os tool version : String)
    (t : RegistryTool) (hreg : registry tool = some t) :
    (∀ r, lookupRelease t.releases (expand_version arch os version) = some r →
      resolve_dependency registry arch os tool version =
        .ok ⟨t.name, expand_version arch os version, r.url, r.hash⟩) ∧
    (lookupRelease t.releases (expand_version arch os version) = none →
      containsSub (expand_version arch os version) "musl" = true →
      resolve_dependency registry arch os tool version =
        (match lookupRelease t.releases
            (strReplace (expand_version arch os version) "musl" "gnu") with
        | some r => .ok ⟨t.name, expand_version arch os version, r.url, r.hash⟩
        | none => .error .versionNotFound)) ∧
    (lookupRelease t.releases (expand_version arch os version) = none →
      containsSub (expand_version arch os version) "musl" = false →
      containsSub (expand_version arch os version) "gnu" = true →
      resolve_dependency registry arch os tool version =
        (match lookupRelease t.releases
            (strReplace (expand_version arch os version) "gnu" "musl") with
        | some r => .ok ⟨t.name, expand_version arch os version, r.url, r.hash⟩
        | none => .error .versionNotFound)) ∧
    (lookupRelease t.releases (expand_version arch os version) = none →
      containsSub (expand_version arch os version) "musl" = false →
      containsSub (expand_version arch os version) "gnu" = false →
      resolve_dependency registry arch os tool version = .error .versionNotFound) ∧
    (expand_version "x86_64" "linux" "1.42.1" = "1.42.1-x86_64-unknown-linux-gnu" ∧
      containsSub "1.42.1-x86_64-unknown-linux-gnu" "musl" = false ∧
      containsSub "1.42.1-x86_64-unknown-linux-gnu" "gnu" = true ∧
      strReplace "1.42.1-x86_64-unknown-linux-gnu" "gnu" "musl" =
        "1.42.1-x86_64-unknown-linux-musl") := by
  refine ⟨?_, ?_, ?_, ?_, by constructor <;> decide⟩
  · intro r hr
    simp [resolve_dependency, hreg, hr]
  · intro hnone hmusl
    simp only [resolve_dependency, hreg, hnone, hmusl, if_true]
    cases lookupRelease t.releases
      (strReplace (expand_version arch os version) "musl" "gnu") <;> rfl
  · intro hnone hmusl hgnu
    simp only [resolve_dependency, hreg, hnone, hmusl, hgnu, if_true,
      Bool.false_eq_true, if_false]
    cases lookupRelease t.releases
      (strReplace (expand_version arch os version) "gnu" "musl") <;> rfl
  · intro hnone hmusl hgnu
    simp [resolve_dependency, hreg, hnone, hmusl, hgnu]

/-- Witness for `resolve_dependency_lookup_order`: a registry whose only
release is the musl variant is found through the fallback for a gnu host
key. -/
theorem resolve_dependency_lookup_order_witness :
    resolve_dependency
      (fun n => if n = "just" then
        some ⟨"just", "casey/just",
          [("1.42.1-x86_64-unknown-linux-musl", ⟨"https://e.com/just.tar.gz", "h"⟩)]⟩
        else none)
      "x86_64" "linux" "just" "1.42.1" =
      .ok ⟨"just", "1.42.1-x86_64-unknown-linux-gnu", "https://e.com/just.tar.gz", "h"⟩ := by
  have h := (resolve_dependency_lookup_order
    (fun n => if n = "just" then
      some ⟨"just", "casey/just",
        [("1.42.1-x86_64-unknown-linux-musl", ⟨"https://e.com/just.tar.gz", "h"⟩)]⟩
      else none)
    "x86_64" "linux" "just" "1.42.1"
    ⟨"just", "casey/just",
      [("1.42.1-x86_64-unknown-linux-musl", ⟨"https://e.com/just.tar.gz", "h"⟩)]⟩
    (by simp)).2.2.1 (by decide) (by decide) (by decide)
  rw [h]
  decide

/-! ## C10: fallback success records the originally requested key -/

/-- C10: when resolution succeeds only through the musl/gnu fallback, the
`version` field of the `ResolvedDependency` is the originally requested
platform-qualified key (not the swapped key that matched), while `url` and
`hash` come from the fallback release entry; consequently the
`LockedPackage` that `sync` records for that dependency carries the
originally requested key too. -/
theorem resolve_fallback_preserves_requested_version
    (registry : String → Option RegistryTool) (arch os tool version : String)
    (t : RegistryTool) (r : ReleaseInfo) (hreg : registry tool = some t) :
    (lookupRelease t.releases (expand_version arch os version) = none →
      containsSub (expand_version arch os version) "musl" = true →
      lookupRelease t.releases
        (strReplace (expand_version arch os version) "musl" "gnu") = some r →
      resolve_dependency registry arch os tool version =
        .ok ⟨t.name, expand_version arch os version, r.url, r.hash⟩ ∧
      ∀ prev, FrateLock.sync (resolve_dependency registry arch os) prev [(tool, version)] =
        ([⟨t.name, expand_version arch os version, r.url, r.hash⟩], .ok ())) ∧
    (lookupRelease t.releases (expand_version arch os version) = none →
      containsSub (expand_version arch os version) "musl" = false →
      containsSub (expand_version arch os version) "gnu" = true →
      lookupRelease t.releases
        (strReplace (expand_version arch os version) "gnu" "musl") = some r →
      resolve_dependency registry arch os tool version =
        .ok ⟨t.name, expand_version arch os version, r.url, r.hash⟩ ∧
      ∀ prev, FrateLock.sync (resolve_dependency registry arch os) prev [(tool, version)] =
        ([⟨t.name, expand_version arch os version, r.url, r.hash⟩], .ok ())) := by
  constructor
  · intro hnone hmusl hswap
    have hres : resolve_dependency registry arch os tool version =
        .ok ⟨t.name, expand_version arch os version, r.url, r.hash⟩ := by
      simp [resolve_dependency, hreg, hnone, hmusl, hswap]
    exact ⟨hres, fun prev => by simp [FrateLock.sync, hres]⟩
  · intro hnone hmusl hgnu hswap
    have hres : resolve_dependency registry arch os tool version =
        .ok ⟨t.name, expand_version arch os version, r.url, r.hash⟩ := by
      simp [resolve_dependency, hreg, hnone, hmusl, hgnu, hswap]
    exact ⟨hres, fun prev => by simp [FrateLock.sync, hres]⟩

/-- Witness for `resolve_fallback_preserves_requested_version`: the locked
package for a musl-only registry on a gnu host carries the gnu key with the
musl release's url and hash. -/
theorem resolve_fallback_preserves_requested_version_witness :
    FrateLock.sync
      (resolve_dependency
        (fun n => if n = "just" then
          some ⟨"just", "casey/just",
            [("1.42.1-x86_64-unknown-linux-musl", ⟨"https://e.com/just.tar.gz", "h"⟩)]⟩
          else none)
        "x86_64" "linux")
      [] [("just", "1.42.1")] =
      ([⟨"just", "1.42.1-x86_64-unknown-linux-gnu", "https://e.com/just.tar.gz", "h"⟩],
        .ok ()) :=
  ((resolve_fallback_preserves_requested_version
      (fun n => if n = "just" then
        some ⟨"just", "casey/just",
          [("1.42.1-x86_64-unknown-linux-musl", ⟨"https://e.com/just.tar.gz", "h"⟩)]⟩
        else none)
      "x86_64" "linux" "just" "1.42.1"
      ⟨"just", "casey/just",
        [("1.42.1-x86_64-unknown-linux-musl", ⟨"https://e.com/just.tar.gz", "h"⟩)]⟩
      ⟨"https://e.com/just.tar.gz", "h"⟩
      (by simp)).2 (by decide) (by decide) (by decide) (by decide)).2 []

/-! ## C5: uninstall idempotence -/

/-- C5 counterexample: when neither `.frate/bin` nor `.frate/shims` exists,
`uninstall_packages` (uninstall-all) does not succeed — `remove_dir_all` is
called without an existence check and fails on the missing directory —
refuting the claim that uninstall-all is idempotent. -/
theorem uninstall_all_missing_dirs_errors :
    uninstall_packages ⟨none, none⟩ =
      (⟨none, none⟩, .error (.filesystemError ".frate/bin")) ∧
    uninstall_packages ⟨some ["t"], none⟩ =
      (⟨none, none⟩, .error (.filesystemError ".frate/shims")) :=
  ⟨rfl, rfl⟩

/-- C5 amended: single-package uninstall is idempotent — uninstalling a
package that was never installed returns success and leaves the filesystem
unchanged — but uninstall-all errors whenever `.frate/bin` (or, after `bin`
is removed, `.frate/shims`) does not exist; when both directories exist it
succeeds, leaving them empty. -/
theorem uninstall_package_idempotent_uninstall_all_not
    (fs : ProjectFS) (name : String) :
    ((match fs.binDir with
      | some l => l.contains name
      | none => false) = false →
     (match fs.shimsDir with
      | some l => l.contains name
      | none => false) = false →
     uninstall_package name fs = (fs, .ok ())) ∧
    (fs.binDir = none →
      uninstall_packages fs = (fs, .error (.filesystemError ".frate/bin"))) ∧
    (∀ b, fs.binDir = some b → fs.shimsDir = none →
      uninstall_packages fs = (⟨none, none⟩, .error (.filesystemError ".frate/shims"))) ∧
    (∀ b s, fs.binDir = some b → fs.shimsDir = some s →
      uninstall_packages fs = (⟨some [], some []⟩, .ok ())) := by
  refine ⟨?_, ?_, ?_, ?_⟩
  · intro hbin hshim
    obtain ⟨bd, sd⟩ := fs
    cases bd <;> cases sd <;> simp_all [uninstall_package]
  · intro hbin
    simp [uninstall_packages, hbin]
  · intro b hbin hshim
    obtain ⟨bd, sd⟩ := fs
    cases hbin
    cases hshim
    rfl
  · intro b s hbin hshim
    obtain ⟨bd, sd⟩ := fs
    cases hbin
    cases hshim
    rfl

/-- Witness for `uninstall_package_idempotent_uninstall_all_not`:
uninstalling a never-installed package from a populated state changes
nothing, and uninstall-all on a missing `bin` directory errors. -/
theorem uninstall_package_idempotent_uninstall_all_not_witness :
    uninstall_package "ghost" ⟨some ["other"], some ["other"]⟩ =
      (⟨some ["other"], some ["other"]⟩, .ok ()) ∧
    uninstall_packages ⟨none, some []⟩ =
      (⟨none, some []⟩, .error (.filesystemError ".frate/bin")) :=
  ⟨(uninstall_package_idempotent_uninstall_all_not
      ⟨some ["other"], some ["other"]⟩ "ghost").1 (by decide) (by decide),
   (uninstall_package_idempotent_uninstall_all_not ⟨none, some []⟩ "x").2.1 rfl⟩

/-! ## C1: integrity failure and the destination directory -/

/-- C1 counterexample: with a corrupt cached archive (stored digest `00`
against expected `ff`), `install_package` does fail with `integrityError`,
but the destination binary directory `.frate/bin/pkg` — absent beforehand —
has been created by the unconditional `create_dir_all` that precedes hash
verification, refuting "does not create or modify the destination binary
directory". -/
theorem install_integrity_creates_dest_dir :
    install_package (fun _ => "00") (fun _ => none) (fun _ => true) (fun _ => true)
      ⟨"/cache", true, [("pkg.zip", [1, 2, 3])]⟩ true []
      ⟨"pkg", "1.0.0", "https://e.com/pkg.zip", "sha256:ff"⟩ ".frate" =
      ([.createDir ".frate/bin/pkg", .readCache "/cache/pkg.zip"],
        .error (.integrityError "ff" "00")) ∧
    dirsAfter [.createDir ".frate/bin/pkg", .readCache "/cache/pkg.zip"] [] =
      [".frate/bin/pkg"] :=
  ⟨rfl, rfl⟩

/-- C1 amended: on a hash mismatch — for a cached archive or for freshly
downloaded bytes — `install_package` fails with `integrityError` and
performs no extraction into the destination, no cache write and no shim
creation; the only effects are the `create_dir_all` of the destination
directory (which therefore may create it empty) and the cache read or
download. -/
theorem install_integrity_failure_no_extraction
    (sha : Bytes → String) (net : String → Option HttpResponse)
    (zipOk tarOk : Bytes → Bool) (cache : CacheState) (seen : Bool)
    (we : List WalkEntry) (pkg : LockedPackage) (frate_dir : String) :
    (∀ path bytes, get_cached_archive cache pkg.source = some path →
      cacheFileBytes cache pkg.source = some bytes →
      sha bytes ≠ format_hash pkg.hash →
      install_package sha net zipOk tarOk cache seen we pkg frate_dir =
        ([.createDir (frate_dir ++ "/bin" ++ "/" ++ pkg.name), .readCache path],
          .error (.integrityError (format_hash pkg.hash) (sha bytes)))) ∧
    (∀ resp, get_cached_archive cache pkg.source = none →
      net pkg.source = some resp → statusSuccess resp.status = true →
      sha resp.body ≠ format_hash pkg.hash →
      install_package sha net zipOk tarOk cache seen we pkg frate_dir =
        ([.createDir (frate_dir ++ "/bin" ++ "/" ++ pkg.name), .download pkg.source],
          .error (.integrityError (format_hash pkg.hash) (sha resp.body)))) := by
  constructor
  · intro path bytes hget hbytes hsha
    simp [install_package, extract_cached, hget, hbytes, hsha]
  · intro resp hget hnet hst hsha
    simp [install_package, download_and_extract, hget, hnet, hst, hsha]

/-- Witness for `install_integrity_failure_no_extraction`: the cached-archive
conjunct at a concrete corrupt cache entry. -/
theorem install_integrity_failure_no_extraction_witness :
    install_package (fun _ => "beef") (fun _ => none) (fun _ => true) (fun _ => true)
      ⟨"/c", true, [("a.tar.gz", [7])]⟩ true []
      ⟨"a", "1.0.0", "https://e.com/a.tar.gz", "sha256:dead"⟩ ".frate" =
      ([.createDir ".frate/bin/a", .readCache "/c/a.tar.gz"],
        .error (.integrityError "dead" "beef")) := by
  have h := (install_integrity_failure_no_extraction (fun _ => "beef") (fun _ => none)
    (fun _ => true) (fun _ => true) ⟨"/c", true, [("a.tar.gz", [7])]⟩ true []
    ⟨"a", "1.0.0", "https://e.com/a.tar.gz", "sha256:dead"⟩ ".frate").1
    "/c/a.tar.gz" [7] (by decide) (by decide) (by decide)
  exact h

/-! ## C2: unsupported archive type is detected only after download -/

/-- C2 counterexample: for a source URL ending in `.rar`, `install_package`
does fail with `unsupportedArchiveType`, but the download effect has already
been performed (and the destination directory created) — refuting "before
performing any network or filesystem side effect". -/
theorem unsupported_type_downloads_first :
    install_package (fun _ => "aa") (fun _ => some ⟨200, [5]⟩) (fun _ => true)
      (fun _ => true) ⟨"/cache", false, []⟩ true []
      ⟨"pkg", "1.0.0", "https://e.com/pkg.rar", "aa"⟩ ".frate" =
      ([.createDir ".frate/bin/pkg", .download "https://e.com/pkg.rar"],
        .error (.unsupportedArchiveType "pkg.rar")) ∧
    Effect.download "https://e.com/pkg.rar" ∈
      [Effect.createDir ".frate/bin/pkg", Effect.download "https://e.com/pkg.rar"] :=
  ⟨rfl, by decide⟩

/-- C2 amended: for a source URL whose suffix is neither `.zip` nor
`.tar.gz` (and no cached entry), install first downloads the archive and
verifies its hash; only then does it fail with `unsupportedArchiveType`,
performing no extraction into the destination and no cache write (the
destination directory has however already been created, and the download
already performed). -/
theorem unsupported_type_after_download_no_extraction
    (sha : Bytes → String) (net : String → Option HttpResponse)
    (zipOk tarOk : Bytes → Bool) (cache : CacheState) (seen : Bool)
    (we : List WalkEntry) (pkg : LockedPackage) (frate_dir : String)
    (resp : HttpResponse) (hget : get_cached_archive cache pkg.source = none)
    (hnet : net pkg.source = some resp) (hst : statusSuccess resp.status = true)
    (hsha : sha resp.body = format_hash pkg.hash)
    (hzip : strEndsWith pkg.source ".zip" = false)
    (htar : strEndsWith pkg.source ".tar.gz" = false) :
    install_package sha net zipOk tarOk cache seen we pkg frate_dir =
      ([.createDir (frate_dir ++ "/bin" ++ "/" ++ pkg.name), .download pkg.source],
        .error (.unsupportedArchiveType (lastSegment pkg.source))) := by
  simp [install_package, download_and_extract, hget, hnet, hst, hsha, hzip, htar]

/-- Witness for `unsupported_type_after_download_no_extraction` at a
concrete `.rar` URL. -/
theorem unsupported_type_after_download_no_extraction_witness :
    install_package (fun _ => "cc") (fun _ => some ⟨204, [6]⟩) (fun _ => true)
      (fun _ => true) ⟨"/c", true, [("other.zip", [1])]⟩ true []
      ⟨"q", "2.0.0", "https://e.com/q.rar", "sha256:cc"⟩ ".frate" =
      ([.createDir ".frate/bin/q", .download "https://e.com/q.rar"],
        .error (.unsupportedArchiveType "q.rar")) :=
  unsupported_type_after_download_no_extraction (fun _ => "cc")
    (fun _ => some ⟨204, [6]⟩) (fun _ => true) (fun _ => true)
    ⟨"/c", true, [("other.zip", [1])]⟩ true []
    ⟨"q", "2.0.0", "https://e.com/q.rar", "sha256:cc"⟩ ".frate" ⟨204, [6]⟩
    (by decide) (by decide) (by decide) (by decide) (by decide) (by decide)

/-! ## C6: the cache-write guard of `download_and_extract` -/

/-- C6 counterexample: with a same-named entry (`pkg.zip`) already cached,
a direct `download_and_extract` of `https://e.com/pkg.zip` still performs
the cache write — the guard `is_cached(url)` substring-matches the full URL
against cache paths and is false here — refuting "the cache write is
skipped whenever a same-named entry is already cached". -/
theorem cache_skip_guard_ignores_same_named_entry :
    lastSegment "https://e.com/pkg.zip" = "pkg.zip" ∧
    (CacheState.mk "/cache" true [("pkg.zip", [7])]).files.any
      (fun f => f.1 == "pkg.zip") = true ∧
    is_cached ⟨"/cache", true, [("pkg.zip", [7])]⟩ "https://e.com/pkg.zip" = false ∧
    download_and_extract (fun _ => "aa") (fun _ => some ⟨200, [9]⟩) (fun _ => true)
      (fun _ => true) ⟨"/cache", true, [("pkg.zip", [7])]⟩
      "https://e.com/pkg.zip" "/dest" "aa" =
      ([.download "https://e.com/pkg.zip", .extractZip "/dest",
        .cacheWrite "pkg.zip" [9]], .ok ()) := by
  refine ⟨rfl, rfl, by decide, by decide⟩

/-- C6 amended: in `download_and_extract`, after the downloaded bytes pass
hash verification and the archive extracts successfully, the verified bytes
are written into the Archive Cache — the write being skipped only when the
cache directory exists and some walked cache path contains the full URL as
a substring (`is_cached`), a condition a same-named cache entry does not
establish; on a hash mismatch nothing is cached or extracted. -/
theorem download_cache_write_after_extraction
    (sha : Bytes → String) (net : String → Option HttpResponse)
    (zipOk tarOk : Bytes → Bool) (cache : CacheState)
    (url dest hash : String) (resp : HttpResponse)
    (hnet : net url = some resp) (hst : statusSuccess resp.status = true) :
    (sha resp.body = format_hash hash → strEndsWith url ".zip" = true →
      zipOk resp.body = true →
      download_and_extract sha net zipOk tarOk cache url dest hash =
        ((if is_cached cache url = false then
            [.download url, .extractZip dest, .cacheWrite (lastSegment url) resp.body]
          else [.download url, .extractZip dest]), .ok ())) ∧
    (sha resp.body = format_hash hash → strEndsWith url ".zip" = false →
      strEndsWith url ".tar.gz" = true → tarOk resp.body = true →
      download_and_extract sha net zipOk tarOk cache url dest hash =
        ((if is_cached cache url = false then
            [.download url, .extractTarGz dest, .cacheWrite (lastSegment url) resp.body]
          else [.download url, .extractTarGz dest]), .ok ())) ∧
    (sha resp.body ≠ format_hash hash →
      download_and_extract sha net zipOk tarOk cache url dest hash =
        ([.download url], .error (.integrityError (format_hash hash) (sha resp.body)))) ∧
    (is_cached cache url = true ↔
      cache.dirExists = true ∧ ∃ p ∈ cache.paths, containsSub p url = true) := by
  refine ⟨?_, ?_, ?_, ?_⟩
  · intro hsha hzip hok
    simp only [download_and_extract, hnet, hst, hsha, hzip, hok]
    cases h : is_cached cache url <;> simp [h]
  · intro hsha hzip htar hok
    simp only [download_and_extract, hnet, hst, hsha, hzip, htar, hok]
    cases h : is_cached cache url <;> simp [h]
  · intro hsha
    simp [download_and_extract, hnet, hst, hsha]
  · cases hd : cache.dirExists <;> simp [is_cached, hd, List.any_eq_true]

/-- Witness for `download_cache_write_after_extraction`: a fresh zip
download is cached after extraction when the cache is empty. -/
theorem download_cache_write_after_extraction_witness :
    download_and_extract (fun _ => "dd") (fun _ => some ⟨200, [3, 4]⟩)
      (fun _ => true) (fun _ => true) ⟨"/cache", false, []⟩
      "https://e.com/tool.zip" "/dest" "sha256:dd" =
      ([.download "https://e.com/tool.zip", .extractZip "/dest",
        .cacheWrite "tool.zip" [3, 4]], .ok ()) := by
  have h := (download_cache_write_after_extraction (fun _ => "dd")
    (fun _ => some ⟨200, [3, 4]⟩) (fun _ => true) (fun _ => true)
    ⟨"/cache", false, []⟩ "https://e.com/tool.zip" "/dest" "sha256:dd"
    ⟨200, [3, 4]⟩ (by decide) (by decide)).1 (by decide) (by decide) (by decide)
  rw [h]
  decide

/-! ## C7: choice of the primary executable -/

/-- The sort key of `get_binary` only takes the values 0 and 10. -/
theorem rank_zero_or_ten (name p : String) : rank name p = 0 ∨ rank name p = 10 := by
  by_cases h : matchesNameRe name (asciiLower (fileStem (lastSegment p))) = true
  · exact Or.inl (by simp [rank, h])
  · exact Or.inr (by simp [rank, h])

/-- Inserting a key-0 element puts it at the front. -/
theorem insertByKey_of_key_zero (k : String → Nat) (x : String) (hx : k x = 0)
    (l : List String) : insertByKey k x l = x :: l := by
  cases l with
  | nil => rfl
  | cons y ys => simp [insertByKey, hx]

/-- Inserting a key-10 element skips a prefix of key-0 elements. -/
theorem insertByKey_skip_zeros (k : String → Nat) (x : String) (hx : k x = 10)
    (A B : List String) (hA : ∀ y ∈ A, k y = 0) :
    insertByKey k x (A ++ B) = A ++ insertByKey k x B := by
  induction A with
  | nil => rfl
  | cons a as ih =>
    have ha : k a = 0 := hA a (by simp)
    simp only [List.cons_append, insertByKey, hx, ha]
    rw [if_neg (by omega)]
    exact congrArg (a :: ·) (ih (fun y hy => hA y (by simp [hy])))

/-- Inserting a key-10 element before key-10 elements puts it at the front. -/
theorem insertByKey_of_key_ten (k : String → Nat) (x : String) (hx : k x = 10)
    (B : List String) (hB : ∀ y ∈ B, k y = 10) : insertByKey k x B = x :: B := by
  cases B with
  | nil => rfl
  | cons b bs =>
    have hb : k b = 10 := hB b (by simp)
    simp [insertByKey, hx, hb]

/-- For a two-valued key, the stable sort is the key-0 elements (in order)
followed by the key-10 elements (in order). -/
theorem sortByKey_two_valued (k : String → Nat) (hk : ∀ x, k x = 0 ∨ k x = 10)
    (l : List String) :
    sortByKey k l = l.filter (fun x => k x == 0) ++ l.filter (fun x => !(k x == 0)) := by
  induction l with
  | nil => rfl
  | cons x xs ih =>
    have hstep : sortByKey k (x :: xs) = insertByKey k x (sortByKey k xs) := rfl
    rw [hstep, ih]
    rcases hk x with hx | hx
    · rw [insertByKey_of_key_zero k x hx]
      simp [List.filter_cons, hx]
    · rw [insertByKey_skip_zeros k x hx _ _
        (fun y hy => by simpa using (List.mem_filter.mp hy).2)]
      rw [insertByKey_of_key_ten k x hx _
        (fun y hy => by
          have := (List.mem_filter.mp hy).2
          rcases hk y with h0 | h1
          · simp [h0] at this
          · exact h1)]
      simp [List.filter_cons, hx]

/-- `find?` returns the head of `filter`. -/
theorem find?_eq_head?_filter (p : String → Bool) (l : List String) :
    l.find? p = (l.filter p).head? := by
  induction l with
  | nil => rfl
  | cons x xs ih =>
    by_cases hx : p x = true
    · rw [List.find?_cons_of_pos _ hx, List.filter_cons_of_pos hx]
      rfl
    · rw [List.find?_cons_of_neg _ hx, List.filter_cons_of_neg hx, ih]

/-- C7 amended: `get_binary` ranks each executable candidate 0 when the
regex `(?i)\b{name}.*` matches its lowercased file stem (a word boundary is
required only before the name, not after it) and 10 otherwise, and returns
the first candidate in directory-traversal order among the lowest-ranked
(the sort is stable); zero executable candidates is a `binaryNotFound`
error. -/
theorem get_binary_first_in_walk_order (name : String) (entries : List WalkEntry) :
    ((entries.filter (fun e => e.isFile && is_executable e.mode)).map
        (fun e => e.path) = [] →
      get_binary name true entries = .error (.binaryNotFound name)) ∧
    (∀ c, ((entries.filter (fun e => e.isFile && is_executable e.mode)).map
        (fun e => e.path)).find? (fun p => rank name p == 0) = some c →
      get_binary name true entries = .ok (some c)) ∧
    (((entries.filter (fun e => e.isFile && is_executable e.mode)).map
        (fun e => e.path)).find? (fun p => rank name p == 0) = none →
      ∀ c cs, (entries.filter (fun e => e.isFile && is_executable e.mode)).map
          (fun e => e.path) = c :: cs →
        get_binary name true entries = .ok (some c)) := by
  set cands := (entries.filter (fun e => e.isFile && is_executable e.mode)).map
    (fun e => e.path) with hcands
  have hsort := sortByKey_two_valued (rank name) (fun x => rank_zero_or_ten name x) cands
  have h0 : get_binary name true entries =
      if cands.isEmpty then .error (.binaryNotFound name)
      else .ok (some ((sortByKey (rank name) cands).headD "")) := by
    rw [hcands]
    rfl
  refine ⟨?_, ?_, ?_⟩
  · intro h
    rw [h0, if_pos (by simp [List.isEmpty_iff, h])]
  · intro c hfind
    have hne : cands ≠ [] := by
      intro h
      rw [h] at hfind
      simp at hfind
    rw [find?_eq_head?_filter] at hfind
    obtain ⟨A', hA'⟩ : ∃ A', cands.filter (fun p => rank name p == 0) = c :: A' := by
      cases h : cands.filter (fun p => rank name p == 0) with
      | nil => rw [h] at hfind; simp at hfind
      | cons a as =>
        rw [h] at hfind
        simp at hfind
        exact ⟨as, by rw [hfind]⟩
    rw [h0, if_neg (by simp [List.isEmpty_iff, hne]), hsort, hA']
    rfl
  · intro hfind c cs hc
    have hA : cands.filter (fun p => rank name p == 0) = [] := by
      rw [find?_eq_head?_filter] at hfind
      simpa using hfind
    have hB : cands.filter (fun p => !(rank name p == 0)) = cands := by
      rw [List.filter_eq_self]
      intro a ha
      have := List.find?_eq_none.mp (by rw [find?_eq_head?_filter, hA]; rfl) a ha
      simpa using this
    rw [h0, if_neg (by simp [List.isEmpty_iff, hc]), hsort, hA, hB, List.nil_append, hc]
    rfl

/-- Witness for `get_binary_first_in_walk_order`: with one rank-10 and one
rank-0 candidate, the rank-0 one is picked regardless of position. -/
theorem get_binary_first_in_walk_order_witness :
    get_binary "rg" true [⟨"/b/rg-x/doc.sh", true, 493⟩, ⟨"/b/rg-x/rg", true, 493⟩] =
      .ok (some "/b/rg-x/rg") :=
  (get_binary_first_in_walk_order "rg"
    [⟨"/b/rg-x/doc.sh", true, 493⟩, ⟨"/b/rg-x/rg", true, 493⟩]).2.1
    "/b/rg-x/rg" (by decide)

/-- C7 counterexample: with two rank-0 candidates in traversal order
`[b-tool, a-tool]`, `get_binary` returns `b-tool` — the first in traversal
order — although `a-tool` is lexicographically first, refuting
"lexicographically-first"; moreover stem `justfile` gets rank 0 for tool
`just` although it does not contain `just` as a whole word, refuting the
whole-word reading of the rank. -/
theorem get_binary_walk_order_not_lexicographic :
    get_binary "tool" true [⟨"/x/b-tool", true, 493⟩, ⟨"/x/a-tool", true, 493⟩] =
      .ok (some "/x/b-tool") ∧
    rank "tool" "/x/b-tool" = 0 ∧ rank "tool" "/x/a-tool" = 0 ∧
    "/x/a-tool".data < "/x/b-tool".data ∧
    rank "just" "/x/justfile" = 0 := by
  exact ⟨by decide, by decide, by decide, by decide, by decide⟩

/-! ## C8: lockfile save/load round trip -/

/-- Hex digits decode back to their value. -/
theorem hexVal_hexDigit (n : Nat) (h : n < 16) : hexVal (hexDigit n) = some n := by
  have hall : ∀ m, m < 16 → hexVal (hexDigit m) = some m := by decide
  exact hall n h

/-- Escaping a character yields at least one character. -/
theorem escChar_length_pos (c : Char) : 1 ≤ (escChar c).length := by
  unfold escChar
  repeat' split
  all_goals simp

/-- With a literal escape letter `e`, one step of `unescapeQuotedAux` on
`'\\' :: e :: tail` reduces to a match on `decodeEsc e` and the recursive
call; combined with `decodeEsc e = some ch` and the recursive result this
decodes the escape. -/
theorem unescapeQuotedAux_named (f : Nat) (e ch : Char) (tail s r : List Char)
    (hred : unescapeQuotedAux (f + 1) ('\\' :: e :: tail) =
      (match decodeEsc e, unescapeQuotedAux f tail with
      | some ch, some (s, r) => some (ch :: s, r)
      | _, _ => none))
    (hch : decodeEsc e = some ch)
    (htail : unescapeQuotedAux f tail = some (s, r)) :
    unescapeQuotedAux (f + 1) ('\\' :: e :: tail) = some (ch :: s, r) := by
  rw [hred, hch, htail]

/-- `unescapeQuotedAux` undoes `escapeChars` given enough fuel, consuming
the closing quote. -/
theorem unescapeQuotedAux_escape (s : List Char) : ∀ (fuel : Nat) (rest : List Char),
    (escapeChars s).length + 1 ≤ fuel →
    unescapeQuotedAux fuel (escapeChars s ++ '"' :: rest) = some (s, rest) := by
  induction s with
  | nil =>
    intro fuel rest hf
    obtain ⟨f, rfl⟩ : ∃ f, fuel = f + 1 := ⟨fuel - 1, by omega⟩
    rfl
  | cons c cs ih =>
    intro fuel rest hf
    have hlenc := escChar_length_pos c
    have hlen : (escapeChars (c :: cs)).length =
        (escChar c).length + (escapeChars cs).length := by
      rw [show escapeChars (c :: cs) = escChar c ++ escapeChars cs from rfl,
        List.length_append]
    obtain ⟨f, rfl⟩ : ∃ f, fuel = f + 1 := ⟨fuel - 1, by omega⟩
    have hf' : (escapeChars cs).length + 1 ≤ f := by omega
    have htail := ih f rest hf'
    rw [show escapeChars (c :: cs) = escChar c ++ escapeChars cs from rfl,
      List.append_assoc]
    by_cases h1 : c = '"'
    · subst h1
      exact unescapeQuotedAux_named f '"' '"' _ cs rest rfl rfl htail
    · by_cases h2 : c = '\\'
      · subst h2
        exact unescapeQuotedAux_named f '\\' '\\' _ cs rest rfl rfl htail
      · by_cases h3 : c = '\n'
        · subst h3
          exact unescapeQuotedAux_named f 'n' '\n' _ cs rest rfl rfl htail
        · by_cases h4 : c = '\t'
          · subst h4
            exact unescapeQuotedAux_named f 't' '\t' _ cs rest rfl rfl htail
          · by_cases h5 : c = '\r'
            · subst h5
              exact unescapeQuotedAux_named f 'r' '\r' _ cs rest rfl rfl htail
            · by_cases h6 : c = Char.ofNat 8
              · subst h6
                exact unescapeQuotedAux_named f 'b' (Char.ofNat 8) _ cs rest rfl rfl htail
              · by_cases h7 : c = Char.ofNat 12
                · subst h7
                  exact unescapeQuotedAux_named f 'f' (Char.ofNat 12) _ cs rest rfl rfl htail
                · by_cases h8 : c.toNat < 32 ∨ c.toNat = 127
                  · have hdiv : c.toNat / 16 < 16 := by omega
                    have hmod : c.toNat % 16 < 16 := Nat.mod_lt _ (by omega)
                    have hesc : escChar c =
                        ['\\', 'u', '0', '0', hexDigit (c.toNat / 16),
                          hexDigit (c.toNat % 16)] := by
                      simp [escChar, h1, h2, h3, h4, h5, h6, h7, h8]
                    rw [hesc]
                    rw [show (['\\', 'u', '0', '0', hexDigit (c.toNat / 16),
                        hexDigit (c.toNat % 16)] : List Char) ++
                          (escapeChars cs ++ '"' :: rest) =
                      '\\' :: 'u' :: '0' :: '0' :: hexDigit (c.toNat / 16) ::
                        hexDigit (c.toNat % 16) :: (escapeChars cs ++ '"' :: rest)
                      from rfl]
                    rw [show unescapeQuotedAux (f + 1) ('\\' :: 'u' :: '0' :: '0' ::
                          hexDigit (c.toNat / 16) :: hexDigit (c.toNat % 16) ::
                          (escapeChars cs ++ '"' :: rest)) =
                        (match hexVal '0', hexVal '0', hexVal (hexDigit (c.toNat / 16)),
                          hexVal (hexDigit (c.toNat % 16)),
                          unescapeQuotedAux f (escapeChars cs ++ '"' :: rest) with
                        | some va, some vb, some vc, some vd, some (s, r) =>
                          some (Char.ofNat (((va * 16 + vb) * 16 + vc) * 16 + vd) :: s, r)
                        | _, _, _, _, _ => none) from rfl]
                    rw [hexVal_hexDigit _ hdiv, hexVal_hexDigit _ hmod, htail,
                      show hexVal '0' = some 0 from rfl]
                    show some (Char.ofNat (((0 * 16 + 0) * 16 + c.toNat / 16) * 16 +
                      c.toNat % 16) :: cs, rest) = some (c :: cs, rest)
                    have hv : ((0 * 16 + 0) * 16 + c.toNat / 16) * 16 + c.toNat % 16 =
                        c.toNat := by omega
                    rw [hv, Char.ofNat_toNat]
                  · have hesc : escChar c = [c] := by
                      simp [escChar, h1, h2, h3, h4, h5, h6, h7, h8]
                    rw [hesc]
                    rw [show ([c] : List Char) ++ (escapeChars cs ++ '"' :: rest) =
                      c :: (escapeChars cs ++ '"' :: rest) from rfl]
                    rw [show unescapeQuotedAux (f + 1)
                          (c :: (escapeChars cs ++ '"' :: rest)) =
                        (if c = '"' then some ([], escapeChars cs ++ '"' :: rest)
                        else if c = '\\' then
                          (match escapeChars cs ++ '"' :: rest with
                          | [] => none
                          | e :: rest2 =>
                            if e = 'u' then
                              match rest2 with
                              | a :: b :: c2 :: d :: rest3 =>
                                match hexVal a, hexVal b, hexVal c2, hexVal d,
                                  unescapeQuotedAux f rest3 with
                                | some va, some vb, some vc, some vd, some (s, r) =>
                                  some (Char.ofNat
                                    (((va * 16 + vb) * 16 + vc) * 16 + vd) :: s, r)
                                | _, _, _, _, _ => none
                              | _ => none
                            else
                              match decodeEsc e, unescapeQuotedAux f rest2 with
                              | some ch, some (s, r) => some (ch :: s, r)
                              | _, _ => none)
                        else
                          match unescapeQuotedAux f (escapeChars cs ++ '"' :: rest) with
                          | some (s, r) => some (c :: s, r)
                          | none => none) from rfl]
                    rw [if_neg h1, if_neg h2, htail]

/-- `unescapeQuoted` undoes `escapeChars`, consuming the closing quote. -/
theorem unescapeQuoted_escape (s rest : List Char) :
    unescapeQuoted (escapeChars s ++ '"' :: rest) = some (s, rest) := by
  apply unescapeQuotedAux_escape
  simp [List.length_append]

/-- `expectPrefix` consumes exactly the expected prefix. -/
theorem expectPrefix_append (pre rest : List Char) :
    expectPrefix pre (pre ++ rest) = some rest := by
  induction pre with
  | nil => rfl
  | cons p ps ih => simp [expectPrefix, ih]

/-- `parseBlock` undoes `blockChars` for any continuation of the input. -/
theorem parseBlock_print (p : LockedPackage) (rest : List Char) :
    parseBlock (blockChars p ++ rest) = some (p, rest) := by
  have hshape : blockChars p ++ rest =
      "[[packages]]\nname = \"".toList ++ (escapeChars p.name.toList ++ '"' ::
        ("\nversion = \"".toList ++ (escapeChars p.version.toList ++ '"' ::
        ("\nsource = \"".toList ++ (escapeChars p.source.toList ++ '"' ::
        ("\nhash = \"".toList ++ (escapeChars p.hash.toList ++ '"' :: rest))))))) := by
    simp [blockChars, List.append_assoc]
  rw [hshape]
  unfold parseBlock
  rw [expectPrefix_append]
  simp only [Option.bind_eq_bind, Option.some_bind]
  rw [unescapeQuoted_escape]
  simp only [Option.bind_eq_bind, Option.some_bind]
  rw [expectPrefix_append]
  simp only [Option.bind_eq_bind, Option.some_bind]
  rw [unescapeQuoted_escape]
  simp only [Option.bind_eq_bind, Option.some_bind]
  rw [expectPrefix_append]
  simp only [Option.bind_eq_bind, Option.some_bind]
  rw [unescapeQuoted_escape]
  simp only [Option.bind_eq_bind, Option.some_bind]
  rw [expectPrefix_append]
  simp only [Option.bind_eq_bind, Option.some_bind]
  rw [unescapeQuoted_escape]
  simp only [Option.bind_eq_bind, Option.some_bind]
  rfl

/-- The rendered document is never empty. -/
theorem printLockChars_length_pos (ps : List LockedPackage) :
    0 < (printLockChars ps).length := by
  rcases ps with _ | ⟨p, _ | ⟨q, qs⟩⟩
  · decide
  · simp [printLockChars]
  · simp [printLockChars]

/-- One step of `parseBlocksAux` when the leading block is followed by the
document's final newline. -/
theorem parseBlocksAux_step_last (f : Nat) (l : List Char) (p : LockedPackage)
    (hp : parseBlock l = some (p, ['\n'])) :
    parseBlocksAux (f + 1) l = some [p] := by
  rw [show parseBlocksAux (f + 1) l =
      (match parseBlock l with
      | none => none
      | some (q, rest) =>
        match rest with
        | ['\n'] => some [q]
        | '\n' :: '\n' :: more =>
          match parseBlocksAux f more with
          | some qs => some (q :: qs)
          | none => none
        | _ => none) from rfl, hp]
  rfl

/-- One step of `parseBlocksAux` when the leading block is followed by a
blank-line separator and further blocks. -/
theorem parseBlocksAux_step_sep (f : Nat) (l : List Char) (p : LockedPackage)
    (more : List Char) (hp : parseBlock l = some (p, '\n' :: '\n' :: more)) :
    parseBlocksAux (f + 1) l =
      (match parseBlocksAux f more with
      | some qs => some (p :: qs)
      | none => none) := by
  rw [show parseBlocksAux (f + 1) l =
      (match parseBlock l with
      | none => none
      | some (q, rest) =>
        match rest with
        | ['\n'] => some [q]
        | '\n' :: '\n' :: more =>
          match parseBlocksAux f more with
          | some qs => some (q :: qs)
          | none => none
        | _ => none) from rfl, hp]
  rfl

/-- `parseBlocksAux` with enough fuel undoes `printLockChars` for nonempty
package lists. -/
theorem parseBlocksAux_print (ps : List LockedPackage) : ∀ (fuel : Nat),
    ps ≠ [] → (printLockChars ps).length ≤ fuel →
    parseBlocksAux fuel (printLockChars ps) = some ps := by
  induction ps with
  | nil => intro fuel h _; exact absurd rfl h
  | cons p ps ih =>
    intro fuel _ hf
    obtain ⟨f, rfl⟩ : ∃ f, fuel = f + 1 :=
      ⟨fuel - 1, by have := printLockChars_length_pos (p :: ps); omega⟩
    cases ps with
    | nil =>
      rw [show printLockChars [p] = blockChars p ++ ['\n'] from rfl]
      exact parseBlocksAux_step_last f _ p (parseBlock_print p _)
    | cons q qs =>
      have hlen : (printLockChars (p :: q :: qs)).length =
          (blockChars p).length + 2 + (printLockChars (q :: qs)).length := by
        rw [show printLockChars (p :: q :: qs) =
          blockChars p ++ '\n' :: '\n' :: printLockChars (q :: qs) from rfl]
        simp
        omega
      have hf' : (printLockChars (q :: qs)).length ≤ f := by omega
      rw [show printLockChars (p :: q :: qs) =
        blockChars p ++ '\n' :: '\n' :: printLockChars (q :: qs) from rfl]
      rw [parseBlocksAux_step_sep f _ p _ (parseBlock_print p _)]
      rw [ih f (by simp) hf']

/-- The head of the rendered document for a nonempty package list is `[`. -/
theorem printLockChars_cons_head (p : LockedPackage) (ps : List LockedPackage) :
    (printLockChars (p :: ps)).head? = some '[' := by
  have hb : ∀ Y : List Char, (blockChars p ++ Y).head? = some '[' := by
    intro Y
    rfl
  cases ps with
  | nil => exact hb ['\n']
  | cons q qs => exact hb ('\n' :: '\n' :: printLockChars (q :: qs))

/-- `parseLock` undoes `printLock`. -/
theorem parseLock_printLock (ps : List LockedPackage) :
    parseLock (printLock ps) = some ps := by
  cases ps with
  | nil =>
    show parseLock (String.mk (printLockChars [])) = some []
    rfl
  | cons p ps =>
    have hne : printLock (p :: ps) ≠ "packages = []\n" := by
      intro h
      have hdata := congrArg (fun s => s.data.head?) h
      rw [show (fun s => s.data.head?) (printLock (p :: ps)) =
        (printLockChars (p :: ps)).head? from rfl] at hdata
      rw [printLockChars_cons_head] at hdata
      simp at hdata
    rw [parseLock, if_neg hne]
    rw [show (printLock (p :: ps)).toList = printLockChars (p :: ps) from rfl]
    exact parseBlocksAux_print (p :: ps) _ (by simp) (le_refl _)

/-- C8: saving a lockfile to a path and loading from that path reproduces
exactly the same list of package records (names, versions, sources and
hashes). -/
theorem lock_save_load_roundtrip (packages : List LockedPackage)
    (files : List (String × String)) (path : String) :
    FrateLock.load_or_default (FrateLock.save packages files path) path = packages := by
  show FrateLock.load_or_default (fsWrite files path (printLock packages)) path = packages
  rw [FrateLock.load_or_default,
    show fsLookup (fsWrite files path (printLock packages)) path =
      some (printLock packages) from by simp [fsLookup, fsWrite]]
  show (parseLock (printLock packages)).getD [] = packages
  rw [parseLock_printLock]
  rfl

end Frate
